import Mathlib

/-!
Verification development for the `go-microservices-web-scaper` repository
(a Redis-backed concurrent web crawler, `main.go` + `redis.go`).

The Go source is shallowly embedded as executable Lean definitions:

* `CheckAndMark` models `Crawler.CheckAndMark` (main.go lines 17-29).  The
  Redis `SAdd` on the set `visited_urls` is modelled by its documented
  semantics on the current set contents; the boolean `storeOk` says whether
  the Redis call succeeds (`storeOk = false` is the error branch, which
  logs and returns `true`).
* `process` models `Crawler.process` (main.go lines 96-117), producing the
  chronological list of observable actions (`Event`s), the updated visited
  set, and the list of child tasks that were actually appended to the
  `jobs` queue (an `LPush` whose error is environment-determined; the Go
  code discards that error).
* `workerHandle` models one iteration of `Crawler.worker` after a
  successful `BRPop` (main.go lines 83-94): a failed unmarshal logs and
  calls `wg.Done`; otherwise `process` runs and then `wg.Done` is called.
* `crawlStep` / `runCrawl` execute a whole single-worker crawl:
  `LPush`/`BRPop` on the Redis list `jobs` form a FIFO queue (push at the
  head, pop at the tail), the `sync.WaitGroup` counter is tracked as an
  integer, and the full event trace is accumulated.
* `StartState` / `StartStep` give the interleaving semantics of
  `Crawler.Start` (main.go lines 45-69): the main goroutine and the
  watcher goroutine that runs `wg.Wait()` and closes `done`.
* `extractLoop` / `extractLinks` model the explicit-stack traversal of the
  parsed HTML tree in `extractLinks` (main.go lines 198-232); `fetchPhase`
  models its fetch/status-check phase (lines 170-185).
* `mainValidate` models the flag validation in `main` (lines 118-148).
-/

/-- `WorkItem` (main.go lines 35-38): a URL together with its remaining
crawl depth, carried through the Redis `jobs` queue. -/
structure WorkItem where
  url : String
  depth : Int
deriving DecidableEq

/-- Observable actions of the crawler, in chronological order.
`mark u seen` is a `CheckAndMark` call returning `seen`; `logCrawl` is the
`[Depth d] Crawling: u` print; `fetch u` is the `extractLinks` HTTP GET;
`incr` is `wg.Add(1)`; `push u d ok` is an `LPush` of task `{u, d}` whose
success is `ok` (the Go code ignores this error); `decr` is `wg.Done()`;
`logErr` is an error print. -/
inductive Event where
  | mark (url : String) (seen : Bool)
  | logCrawl (depth : Int) (url : String)
  | fetch (url : String)
  | incr
  | push (url : String) (depth : Int) (ok : Bool)
  | decr
  | logErr (msg : String)
deriving DecidableEq

def isIncr : Event → Bool
  | .incr => true
  | _ => false

def isDecr : Event → Bool
  | .decr => true
  | _ => false

def isPush : Event → Bool
  | .push _ _ _ => true
  | _ => false

def isPushFail : Event → Bool
  | .push _ _ ok => !ok
  | _ => false

def isFetch : Event → Bool
  | .fetch _ => true
  | _ => false

def isFetchOf (u : String) : Event → Bool
  | .fetch v => v == u
  | _ => false

def isMark : Event → Bool
  | .mark _ _ => true
  | _ => false

/-- `Crawler.CheckAndMark` (main.go lines 17-29).  `SAdd visited_urls u`
returns `added = 1` when `u` was absent (it is inserted) and `added = 0`
when already present; the function returns `added == 0`.  On a Redis error
(`storeOk = false`) it logs and returns `true` ("visited"), leaving the
set unchanged. -/
def CheckAndMark (storeOk : Bool) (visited : List String) (u : String) :
    Bool × List String :=
  if storeOk then
    if u ∈ visited then (true, visited) else (false, u :: visited)
  else
    (true, visited)

/-- The environment one task's processing interacts with: whether the
Redis `SAdd` succeeds, the result of `extractLinks` (`none` = fetch/parse
error), and which child `LPush`es succeed. -/
structure TaskEnv where
  storeOk : Bool
  fetchRes : Option (List String)
  pushOk : String → Bool

/-- Trace of the child loop of `Crawler.process` (main.go lines 112-116):
for each extracted link, `wg.Add(1)` then `LPush` of `{link, depth}`. -/
def childEvents (links : List String) (d : Int) (pk : String → Bool) :
    List Event :=
  links.flatMap fun l => [Event.incr, Event.push l d (pk l)]

/-- `Crawler.process` (main.go lines 96-117).  Returns the event trace,
the updated visited set, and the child tasks that actually reached the
`jobs` queue (only those whose `LPush` succeeded; the Go code ignores the
`LPush` error, so failed pushes leave no other trace). -/
def process (env : TaskEnv) (visited : List String) (item : WorkItem) :
    List Event × List String × List WorkItem :=
  if item.depth ≤ 0 then
    ([], visited, [])
  else
    let r := CheckAndMark env.storeOk visited item.url
    if r.1 then
      ([Event.mark item.url true], r.2, [])
    else
      match env.fetchRes with
      | none =>
          ([Event.mark item.url false, Event.logCrawl item.depth item.url,
            Event.fetch item.url], r.2, [])
      | some links =>
          (Event.mark item.url false :: Event.logCrawl item.depth item.url ::
             Event.fetch item.url ::
             childEvents links (item.depth - 1) env.pushOk,
           r.2,
           (links.filter env.pushOk).map fun l => ⟨l, item.depth - 1⟩)

/-- One iteration of `Crawler.worker` after a successful `BRPop`
(main.go lines 83-94): `payload = none` is a failed `json.Unmarshal`
(error print, then `wg.Done`); otherwise `process` runs and then
`wg.Done()` is called. -/
def workerHandle (env : TaskEnv) (visited : List String)
    (payload : Option WorkItem) :
    List Event × List String × List WorkItem :=
  match payload with
  | none => ([Event.logErr "unmarshal", Event.decr], visited, [])
  | some item =>
      let r := process env visited item
      (r.1 ++ [Event.decr], r.2.1, r.2.2)

/-- A whole run of `CheckAndMark` calls against one Redis set: each call
comes with its own store availability.  Returns the list of
`(url, returned boolean)` pairs in call order and the final set. -/
def runCheckAndMark : List String → List (Bool × String) →
    List (String × Bool) × List String
  | visited, [] => ([], visited)
  | visited, (ok, u) :: rest =>
      let r := CheckAndMark ok visited u
      let t := runCheckAndMark r.2 rest
      ((u, r.1) :: t.1, t.2)

/-- `p` is a result "new" (`false`) for address `u`. -/
def isNewResultFor (u : String) (p : String × Bool) : Bool :=
  p.1 == u && !p.2

/-- A run of `Crawler.process` calls sharing the Redis visited set: the
tasks in the order some worker popped them, each with its environment. -/
def runProcess : List String → List (WorkItem × TaskEnv) →
    List Event × List String
  | visited, [] => ([], visited)
  | visited, (item, env) :: rest =>
      let r := process env visited item
      let t := runProcess r.2.1 rest
      (r.1 ++ t.1, t.2)

/-- Global crawl state: the Redis `jobs` list (`LPush` at the head,
`BRPop` at the tail), the Redis `visited_urls` set, the `sync.WaitGroup`
counter, and the accumulated event trace. -/
structure CrawlState where
  queue : List WorkItem
  visited : List String
  counter : Int
  trace : List Event
deriving DecidableEq

/-- Net effect of a trace on the WaitGroup counter. -/
def counterDelta (evs : List Event) : Int :=
  (evs.countP isIncr : Int) - (evs.countP isDecr : Int)

/-- State after the seeding part of `Crawler.Start` (main.go lines 58-60):
`wg.Add(1)`, then `LPush` of the seed task; the `LPush` error is ignored,
so `seedPushOk = false` leaves the queue empty with the counter at 1. -/
def seedState (seed : String) (maxDepth : Int) (seedPushOk : Bool) :
    CrawlState :=
  ⟨if seedPushOk then [⟨seed, maxDepth⟩] else [], [], 1,
   [Event.incr, Event.push seed maxDepth seedPushOk]⟩

/-- One worker iteration on the global state: `BRPop` the tail of `jobs`
(no step if empty), handle it, `LPush` each surviving child at the head,
and apply the `wg` increments and the final `wg.Done`. -/
def crawlStep (env : WorkItem → TaskEnv) (st : CrawlState) : CrawlState :=
  match st.queue.getLast? with
  | none => st
  | some item =>
      let r := workerHandle (env item) st.visited (some item)
      ⟨r.2.2.foldl (fun q c => c :: q) st.queue.dropLast,
       r.2.1, st.counter + counterDelta r.1, st.trace ++ r.1⟩

/-- Run `fuel` worker iterations (a sequentialized, hence admissible,
schedule of the worker pool). -/
def runCrawl (env : WorkItem → TaskEnv) : Nat → CrawlState → CrawlState
  | 0, st => st
  | n + 1, st => runCrawl env n (crawlStep env st)

/-- The node kinds of `golang.org/x/net/html.NodeType`. -/
inductive NodeType where
  | errorNode
  | textNode
  | documentNode
  | elementNode
  | commentNode
  | doctypeNode
deriving DecidableEq

/-- `html.Attribute`: namespace, key and value of one attribute. -/
structure HtmlAttribute where
  ns : String
  key : String
  val : String
deriving DecidableEq

/-- `html.Node`, with the `FirstChild`/`NextSibling` chain represented as
the list of children in document order. -/
inductive HtmlNode where
  | node (ntype : NodeType) (data : String) (attrs : List HtmlAttribute)
      (children : List HtmlNode)

def HtmlNode.ntype : HtmlNode → NodeType
  | .node t _ _ _ => t

def HtmlNode.data : HtmlNode → String
  | .node _ d _ _ => d

def HtmlNode.attrs : HtmlNode → List HtmlAttribute
  | .node _ _ a _ => a

def HtmlNode.children : HtmlNode → List HtmlNode
  | .node _ _ _ c => c

/-- The attribute loop of `extractLinks` (main.go lines 210-218): take the
value of the first `href` attribute, then `break`. -/
def firstHref : List HtmlAttribute → Option String
  | [] => none
  | a :: rest => if a.key = "href" then some a.val else firstHref rest

theorem sizeOf_sum_lt_sizeOf_list (l : List HtmlNode) :
    (l.map sizeOf).sum < sizeOf l := by
  induction l with
  | nil => simp
  | cons x xs ih =>
      simp only [List.map_cons, List.sum_cons, List.cons.sizeOf_spec]
      omega

theorem children_sizeOf_sum_lt (n : HtmlNode) :
    ((n.children.map sizeOf).sum) < sizeOf n := by
  cases n with
  | node t d a c =>
      have h := sizeOf_sum_lt_sizeOf_list c
      simp only [HtmlNode.children, HtmlNode.node.sizeOf_spec]
      omega

/-- The per-node body of the traversal loop in `extractLinks` (main.go
lines 209-219): if the popped node is an `<a>` element, resolve the value
of its first `href` attribute and append it to `links` unless resolution
returned `""`.  `resolve` stands for `resolveURL base` (main.go lines
235-241), which delegates to `net/url` and returns `""` when parsing
fails. -/
def anchorAppend (resolve : String → String) (n : HtmlNode)
    (links : List String) : List String :=
  if n.ntype = NodeType.elementNode ∧ n.data = "a" then
    match firstHref n.attrs with
    | some href =>
        if resolve href ≠ "" then links ++ [resolve href] else links
    | none => links
  else links

/-- The iterative explicit-stack loop of `extractLinks` (main.go lines
199-230).  The head of `stack` is the slice's top (its last element): each
iteration pops one node, runs `anchorAppend` on it, pushes the node's
children (so they are visited last-pushed-first), and stops once
`len(links) >= 10`. -/
def extractLoop (resolve : String → String) (stack : List HtmlNode)
    (links : List String) : List String :=
  match stack with
  | [] => links
  | n :: rest =>
      let links' := anchorAppend resolve n links
      if 10 ≤ links'.length then links'
      else extractLoop resolve (n.children.reverse ++ rest) links'
termination_by (stack.map sizeOf).sum
decreasing_by
  simp only [List.map_append, List.map_reverse, List.sum_append,
    List.sum_reverse, List.map_cons, List.sum_cons]
  have h := children_sizeOf_sum_lt n
  omega

/-- The tree-walking phase of `extractLinks` (main.go lines 198-232),
applied to the parsed document with an empty link list. -/
def extractLinks (resolve : String → String) (doc : HtmlNode) :
    List String :=
  extractLoop resolve [doc] []

/-- Result of `http.DefaultClient.Do`: a transport error (network failure
or timeout) or a response with a status code. -/
inductive HttpResult where
  | netErr
  | response (statusCode : Int)
deriving DecidableEq

/-- `http.StatusOK`. -/
def statusOK : Int := 200

/-- The fetch/status phase of `extractLinks` (main.go lines 170-185): a
transport error is returned as-is; then any response whose status code is
not exactly `http.StatusOK` (200) is rejected with `status error: <code>`. -/
def fetchPhase (r : HttpResult) : Except String Unit :=
  match r with
  | .netErr => Except.error "transport error"
  | .response code =>
      if code ≠ statusOK then
        Except.error ("status error: " ++ toString code)
      else
        Except.ok ()

/-- The flag validation of `main` (main.go lines 118-148): outcome of a
run with final flag values `url`, `depth`, `workers`.  `rejected msg up`
means `main` printed `msg` (plus the `flag.Usage()` text when `up = true`)
and returned; only the `started` branch reaches `NewRedisClient`,
`Crawler.Start`, the workers and the seed push (lines 146-160). -/
inductive MainOutcome where
  | rejected (msg : String) (usagePrinted : Bool)
  | started (seed : String) (maxDepth : Int) (workers : Int)
deriving DecidableEq

def mainValidate (url : String) (depth workers : Int) : MainOutcome :=
  if url = "" then
    MainOutcome.rejected "Error: --url flag is required" true
  else if depth ≤ 0 then
    MainOutcome.rejected "Error: --depth must be greater than 0" false
  else if workers ≤ 0 then
    MainOutcome.rejected "Error: --workers must be greater than 0" false
  else
    MainOutcome.started url depth workers

/-- Interleaving state of `Crawler.Start` (main.go lines 45-69).
`counter` is the `sync.WaitGroup` counter (0 at entry); `everNonzero`
records whether it has ever been positive; `doneClosed` is whether the
watcher goroutine (lines 49-52) has run `close(done)`; `mainPC` is the
main goroutine's position: 0 = watcher spawned, about to `wg.Add(1)`
(line 58); 1 = about to `LPush` the seed (line 60); 2 = seed pushed,
workers spawned, blocked on `<-done`. -/
structure StartState where
  counter : Int
  everNonzero : Bool
  doneClosed : Bool
  seedPushed : Bool
  mainPC : Nat
deriving DecidableEq

/-- State of `Start` right after the watcher goroutine is spawned
(line 52): the WaitGroup is still zero and nothing has been pushed. -/
def startInit : StartState := ⟨0, false, false, false, 0⟩

/-- Small-step interleaving semantics of `Crawler.Start`: the main
goroutine's `wg.Add(1)` and seed `LPush`, worker `wg.Add(1)`/`wg.Done()`
calls once workers exist, and the watcher goroutine, whose `wg.Wait()`
returns whenever it observes the counter at zero, after which it closes
`done`. -/
inductive StartStep : StartState → StartState → Prop where
  | seedAdd (s : StartState) (h : s.mainPC = 0) :
      StartStep s ⟨s.counter + 1, true, s.doneClosed, s.seedPushed, 1⟩
  | seedPush (s : StartState) (h : s.mainPC = 1) :
      StartStep s ⟨s.counter, s.everNonzero, s.doneClosed, true, 2⟩
  | workerAdd (s : StartState) (h : s.mainPC = 2) :
      StartStep s ⟨s.counter + 1, true, s.doneClosed, s.seedPushed, 2⟩
  | workerDone (s : StartState) (h : s.mainPC = 2) (h2 : 0 < s.counter) :
      StartStep s ⟨s.counter - 1, s.everNonzero, s.doneClosed, s.seedPushed, 2⟩
  | watcherFire (s : StartState) (h : s.counter = 0)
      (h2 : s.doneClosed = false) :
      StartStep s ⟨s.counter, s.everNonzero, true, s.seedPushed, s.mainPC⟩

/-- An `<a href=...>` element with no children. -/
def anchor (href : String) : HtmlNode :=
  HtmlNode.node NodeType.elementNode "a" [⟨"", "href", href⟩] []

/-- A page whose root element has 15 distinct anchor children
(spec scenario 3). -/
def page15 : HtmlNode :=
  HtmlNode.node NodeType.elementNode "html" []
    [anchor "l1", anchor "l2", anchor "l3", anchor "l4", anchor "l5",
     anchor "l6", anchor "l7", anchor "l8", anchor "l9", anchor "l10",
     anchor "l11", anchor "l12", anchor "l13", anchor "l14", anchor "l15"]

/-- A benign environment: Redis up, every fetch returns a page with no
links, every push succeeds. -/
def plainEnv : WorkItem → TaskEnv :=
  fun _ => ⟨true, some [], fun _ => true⟩

/-- An environment where the store is up, page `"u"` links to `"a"`, and
every child `LPush` fails (Redis rejects the append). -/
def pushFailEnv : WorkItem → TaskEnv :=
  fun _ => ⟨true, some ["a"], fun _ => false⟩

example : CheckAndMark true [] "a" = (false, ["a"]) := rfl
example : CheckAndMark true ["a"] "a" = (true, ["a"]) := rfl
example : CheckAndMark false [] "a" = (true, []) := rfl
example :
    (runCheckAndMark [] [(true, "a"), (true, "a")]).1 =
      [("a", false), ("a", true)] := rfl
example :
    process ⟨true, some ["b"], fun _ => true⟩ [] ⟨"a", 2⟩ =
      ([Event.mark "a" false, Event.logCrawl 2 "a", Event.fetch "a",
        Event.incr, Event.push "b" 1 true], ["a"], [⟨"b", 1⟩]) := rfl

theorem CheckAndMark_mem_mono (ok : Bool) (v : List String) (w u : String)
    (h : u ∈ v) : u ∈ (CheckAndMark ok v w).2 := by
  unfold CheckAndMark
  split
  · split
    · exact h
    · exact List.mem_cons_of_mem _ h
  · exact h

theorem CheckAndMark_true_of_mem (ok : Bool) (v : List String) (u : String)
    (h : u ∈ v) : (CheckAndMark ok v u).1 = true := by
  unfold CheckAndMark
  split <;> simp_all

theorem CheckAndMark_false_cases (ok : Bool) (v : List String) (u : String)
    (h : (CheckAndMark ok v u).1 = false) :
    (CheckAndMark ok v u).2 = u :: v ∧ u ∉ v := by
  unfold CheckAndMark at *
  split at h
  · split at h
    · simp at h
    · next hmem => exact ⟨by split <;> simp_all, hmem⟩
  · simp at h

theorem runCheckAndMark_mem_mono (calls : List (Bool × String)) :
    ∀ (v : List String) (u : String),
      u ∈ v → u ∈ (runCheckAndMark v calls).2 := by
  induction calls with
  | nil => intro v u h; exact h
  | cons c rest ih =>
      intro v u h
      obtain ⟨ok, w⟩ := c
      simp only [runCheckAndMark]
      exact ih _ u (CheckAndMark_mem_mono ok v w u h)

theorem runCheckAndMark_results_true_of_mem (calls : List (Bool × String)) :
    ∀ (v : List String) (u : String), u ∈ v →
      ∀ p ∈ (runCheckAndMark v calls).1, p.1 = u → p.2 = true := by
  induction calls with
  | nil => intro v u h p hp; simp [runCheckAndMark] at hp
  | cons c rest ih =>
      intro v u h p hp hpu
      obtain ⟨ok, w⟩ := c
      simp only [runCheckAndMark, List.mem_cons] at hp
      rcases hp with rfl | hp
      · simp only at hpu
        subst hpu
        exact CheckAndMark_true_of_mem ok v _ h
      · exact ih _ u (CheckAndMark_mem_mono ok v w u h) p hp hpu

theorem runCheckAndMark_count_zero_of_mem (calls : List (Bool × String)) :
    ∀ (v : List String) (u : String), u ∈ v →
      (runCheckAndMark v calls).1.countP (isNewResultFor u) = 0 := by
  induction calls with
  | nil => intro v u h; simp [runCheckAndMark]
  | cons c rest ih =>
      intro v u h
      obtain ⟨ok, w⟩ := c
      simp only [runCheckAndMark, List.countP_cons]
      rw [ih _ u (CheckAndMark_mem_mono ok v w u h)]
      by_cases hw : w = u
      · subst hw
        rw [CheckAndMark_true_of_mem ok v w h]
        simp [isNewResultFor]
      · simp [isNewResultFor, hw]

theorem runCheckAndMark_count_le_one (calls : List (Bool × String)) :
    ∀ (v : List String) (u : String),
      (runCheckAndMark v calls).1.countP (isNewResultFor u) ≤ 1 := by
  induction calls with
  | nil => intro v u; simp [runCheckAndMark]
  | cons c rest ih =>
      intro v u
      obtain ⟨ok, w⟩ := c
      simp only [runCheckAndMark, List.countP_cons]
      by_cases hnew : isNewResultFor u (w, (CheckAndMark ok v w).1) = true
      · have hw : w = u ∧ (CheckAndMark ok v w).1 = false := by
          simpa [isNewResultFor] using hnew
        obtain ⟨rfl, hf⟩ := hw
        have hmem : w ∈ (CheckAndMark ok v w).2 := by
          rw [(CheckAndMark_false_cases ok v w hf).1]
          exact List.mem_cons_self _ _
        rw [runCheckAndMark_count_zero_of_mem rest _ w hmem, if_pos hnew]
      · rw [if_neg (by simpa using hnew)]
        simpa using ih _ u

/-- C1: across all `CheckAndMark` calls of an entire run, at most one call
returns "new" (`false`) for any given address; once the address is in the
visited set, every call for it returns `true` ("already seen"); and the
address is never removed from the set (membership is monotone). -/
theorem checkAndMark_at_most_once (v : List String)
    (calls : List (Bool × String)) (u : String) :
    (runCheckAndMark v calls).1.countP (isNewResultFor u) ≤ 1 ∧
    (u ∈ v → u ∈ (runCheckAndMark v calls).2) ∧
    (u ∈ v → ∀ p ∈ (runCheckAndMark v calls).1, p.1 = u → p.2 = true) :=
  ⟨runCheckAndMark_count_le_one calls v u,
   fun h => runCheckAndMark_mem_mono calls v u h,
   fun h => runCheckAndMark_results_true_of_mem calls v u h⟩

theorem checkAndMark_at_most_once_witness :
    (runCheckAndMark ["a"] [(true, "a"), (false, "a"), (true, "b")]).1.countP
        (isNewResultFor "a") ≤ 1 ∧
    "a" ∈ (runCheckAndMark ["a"] [(true, "a"), (false, "a"), (true, "b")]).2 ∧
    (("a", true) : String × Bool).2 = true := by
  have h := checkAndMark_at_most_once ["a"]
    [(true, "a"), (false, "a"), (true, "b")] "a"
  exact ⟨h.1, h.2.1 (by decide), h.2.2 (by decide) ("a", true) (by decide) rfl⟩

/-- C3 (code bug): `Crawler.Start` spawns the watcher goroutine before
`wg.Add(1)`, and `wg.Wait()` returns at once on a zero counter, so from
the initial state of `Start` the watcher can close `done` — signalling
completion and letting `Start` return — before the seed task is counted
and while the counter has never been nonzero. -/
theorem start_watcher_premature_fire :
    StartStep startInit ⟨0, false, true, false, 0⟩ ∧
    (⟨0, false, true, false, 0⟩ : StartState).doneClosed = true ∧
    (⟨0, false, true, false, 0⟩ : StartState).everNonzero = false ∧
    (⟨0, false, true, false, 0⟩ : StartState).seedPushed = false := by
  exact ⟨StartStep.watcherFire startInit rfl rfl, rfl, rfl, rfl⟩

/-- C8 counterexample: 204 lies in the 2xx success range, yet the fetch
phase of `extractLinks` rejects it at the status check, because the code
compares against `http.StatusOK` (exactly 200), not the 2xx range. -/
theorem status_2xx_rejected :
    ((200 : Int) ≤ 204 ∧ (204 : Int) ≤ 299) ∧
    fetchPhase (HttpResult.response 204) =
      Except.error "status error: 204" :=
  ⟨by omega, rfl⟩

/-- C8 amended: the fetch phase of `extract` fails exactly on a transport
error (network failure / timeout) or an HTTP status different from 200
(`http.StatusOK`); only a status of exactly 200 — not every 2xx status —
passes the status check. -/
theorem fetchPhase_ok_iff_status200 (r : HttpResult) :
    fetchPhase r = Except.ok () ↔ r = HttpResult.response 200 := by
  cases r with
  | netErr => simp [fetchPhase]
  | response code =>
      simp only [fetchPhase, statusOK]
      by_cases h : code = 200
      · subst h; simp
      · rw [if_pos h]
        simp [h]

theorem fetchPhase_ok_witness :
    fetchPhase (HttpResult.response 200) = Except.ok () :=
  (fetchPhase_ok_iff_status200 (HttpResult.response 200)).mpr rfl

/-- C9 counterexample: depth 0 is invalid, but `main` prints only the
error line and returns; `flag.Usage()` is called only for a missing
`--url`, so no usage message is printed for an invalid `--depth`. -/
theorem invalid_depth_no_usage :
    mainValidate "https://example.com" 0 10 =
      MainOutcome.rejected "Error: --depth must be greater than 0" false := by
  decide

/-- C9 amended: `main` validates the seed URL, `--depth > 0` and
`--workers > 0` before anything else; a missing `--url` prints an error
plus the usage message, a nonpositive depth or worker count prints only an
error line, and in every invalid case `main` returns in the `rejected`
branch, before `NewRedisClient`, `Crawler.Start`, any worker or any push
(all of which sit in the `started` branch). -/
theorem mainValidate_rejects_invalid (url : String) (d w : Int) :
    (url = "" →
      mainValidate url d w =
        MainOutcome.rejected "Error: --url flag is required" true) ∧
    (url ≠ "" → d ≤ 0 →
      mainValidate url d w =
        MainOutcome.rejected "Error: --depth must be greater than 0" false) ∧
    (url ≠ "" → 0 < d → w ≤ 0 →
      mainValidate url d w =
        MainOutcome.rejected "Error: --workers must be greater than 0" false) ∧
    (url ≠ "" → 0 < d → 0 < w →
      mainValidate url d w = MainOutcome.started url d w) ∧
    (∀ s dd ww, mainValidate url d w = MainOutcome.started s dd ww →
      url ≠ "" ∧ 0 < d ∧ 0 < w) := by
  refine ⟨?_, ?_, ?_, ?_, ?_⟩
  · intro h; simp [mainValidate, h]
  · intro h hd; simp [mainValidate, h, hd]
  · intro h hd hw
    have hd' : ¬ d ≤ 0 := by omega
    simp [mainValidate, h, hd', hw]
  · intro h hd hw
    have hd' : ¬ d ≤ 0 := by omega
    have hw' : ¬ w ≤ 0 := by omega
    simp [mainValidate, h, hd', hw']
  · intro s dd ww h
    unfold mainValidate at h
    split at h
    · simp at h
    · split at h
      · simp at h
      · split at h
        · simp at h
        · next h1 h2 h3 => exact ⟨h1, by omega, by omega⟩

theorem mainValidate_witness :
    mainValidate "" 3 10 =
      MainOutcome.rejected "Error: --url flag is required" true ∧
    mainValidate "https://go.dev" 3 10 =
      MainOutcome.started "https://go.dev" 3 10 := by
  have h1 := mainValidate_rejects_invalid "" 3 10
  have h2 := mainValidate_rejects_invalid "https://go.dev" 3 10
  exact ⟨h1.1 rfl, h2.2.2.2.1 (by decide) (by omega) (by omega)⟩

/-- C4: when the Redis store is unreachable, `CheckAndMark` still returns
a boolean, namely `true` ("already seen"), leaving the set unchanged; and
a task whose store call errs is dropped outright — no fetch is issued and
no child task is enqueued — so a store error never schedules the address
for retries. -/
theorem checkAndMark_store_error_safe (v : List String) (u : String)
    (fr : Option (List String)) (pk : String → Bool) (item : WorkItem) :
    CheckAndMark false v u = (true, v) ∧
    (process ⟨false, fr, pk⟩ v item).1.countP isFetch = 0 ∧
    (process ⟨false, fr, pk⟩ v item).2.2 = [] ∧
    (process ⟨false, fr, pk⟩ v item).2.1 = v := by
  refine ⟨rfl, ?_⟩
  simp only [process]
  split
  · exact ⟨rfl, rfl, rfl⟩
  · simp [CheckAndMark, isFetch]

/-- C5: a task whose remaining depth is nonpositive is dropped before
`CheckAndMark` and before any fetch: `process` returns immediately with no
events, an unchanged visited set and no children.  Concretely, a crawl
seeded at depth 0 performs no fetch and no `CheckAndMark` call, and ends
with visited cardinality 0. -/
theorem process_depth_nonpos_drops (env : TaskEnv) (v : List String)
    (item : WorkItem) (h : item.depth ≤ 0) :
    process env v item = ([], v, []) ∧
    (runCrawl plainEnv 2 (seedState "A" 0 true)).visited = [] ∧
    (runCrawl plainEnv 2 (seedState "A" 0 true)).trace.countP isFetch = 0 ∧
    (runCrawl plainEnv 2 (seedState "A" 0 true)).trace.countP isMark = 0 := by
  refine ⟨?_, by decide, by decide, by decide⟩
  simp only [process]
  rw [if_pos h]

theorem process_depth_nonpos_witness :
    process ⟨true, some ["b"], fun _ => true⟩ ["x"] ⟨"A", 0⟩ =
      ([], ["x"], []) :=
  (process_depth_nonpos_drops ⟨true, some ["b"], fun _ => true⟩ ["x"] ⟨"A", 0⟩
    (by decide)).1

theorem anchorAppend_length_le (resolve : String → String) (n : HtmlNode)
    (links : List String) :
    (anchorAppend resolve n links).length ≤ links.length + 1 := by
  unfold anchorAppend
  split
  · split
    · split <;> simp
    · omega
  · omega

theorem extractLoop_length_le (resolve : String → String) :
    ∀ (m : Nat) (stack : List HtmlNode) (links : List String),
      (stack.map sizeOf).sum ≤ m → links.length < 10 →
      (extractLoop resolve stack links).length ≤ 10 := by
  intro m
  induction m with
  | zero =>
      intro stack links hs hl
      cases stack with
      | nil => rw [extractLoop]; omega
      | cons n rest =>
          exfalso
          have h := children_sizeOf_sum_lt n
          simp only [List.map_cons, List.sum_cons] at hs
          omega
  | succ m ih =>
      intro stack links hs hl
      cases stack with
      | nil => rw [extractLoop]; omega
      | cons n rest =>
          rw [extractLoop]
          have h1 := anchorAppend_length_le resolve n links
          by_cases hc : 10 ≤ (anchorAppend resolve n links).length
          · rw [if_pos hc]; omega
          · rw [if_neg hc]
            apply ih
            · have h := children_sizeOf_sum_lt n
              simp only [List.map_cons, List.sum_cons] at hs
              simp only [List.map_append, List.map_reverse, List.sum_append,
                List.sum_reverse]
              omega
            · omega

theorem extractLinks_length_le (resolve : String → String) (doc : HtmlNode) :
    (extractLinks resolve doc).length ≤ 10 := by
  apply extractLoop_length_le resolve (sizeOf doc)
  · simp
  · simp

theorem extractLinks_page15_eval :
    extractLinks (fun s => s) page15 =
      ["l15", "l14", "l13", "l12", "l11", "l10", "l9", "l8", "l7", "l6"] := by
  simp [extractLinks, extractLoop, page15, anchor, firstHref, anchorAppend,
    HtmlNode.ntype, HtmlNode.data, HtmlNode.attrs, HtmlNode.children]

/-- C6: `extractLinks` never collects more than 10 links for any page and
any resolver; on a page whose root has 15 distinct resolvable anchors it
returns exactly the 10 links its traversal reaches first, and the
remaining 5 are never emitted. -/
theorem extractLinks_cap_ten :
    (∀ (resolve : String → String) (doc : HtmlNode),
      (extractLinks resolve doc).length ≤ 10) ∧
    extractLinks (fun s => s) page15 =
      ["l15", "l14", "l13", "l12", "l11", "l10", "l9", "l8", "l7", "l6"] ∧
    (extractLinks (fun s => s) page15).length = 10 ∧
    "l5" ∉ extractLinks (fun s => s) page15 ∧
    "l4" ∉ extractLinks (fun s => s) page15 ∧
    "l3" ∉ extractLinks (fun s => s) page15 ∧
    "l2" ∉ extractLinks (fun s => s) page15 ∧
    "l1" ∉ extractLinks (fun s => s) page15 := by
  have heval := extractLinks_page15_eval
  refine ⟨fun resolve doc => extractLinks_length_le resolve doc,
    heval, ?_, ?_, ?_, ?_, ?_, ?_⟩ <;> rw [heval] <;> decide

theorem childEvents_no_decr (links : List String) (d : Int)
    (pk : String → Bool) : Event.decr ∉ childEvents links d pk := by
  induction links with
  | nil => simp [childEvents]
  | cons x xs ih =>
      simp only [childEvents, List.flatMap_cons, List.mem_append,
        List.mem_cons, List.not_mem_nil] at *
      intro h
      rcases h with h | h
      · rcases h with h | h | h <;> simp_all
      · exact ih h

theorem process_no_decr (env : TaskEnv) (v : List String) (item : WorkItem) :
    Event.decr ∉ (process env v item).1 := by
  simp only [process]
  split
  · simp
  · split
    · simp
    · cases henv : env.fetchRes with
      | none => simp
      | some links =>
          simp only [List.mem_cons]
          intro h
          rcases h with h | h | h | h
          · simp at h
          · simp at h
          · simp at h
          · exact childEvents_no_decr links (item.depth - 1) env.pushOk h

theorem take_count_cons_nonpush (a : Event) (l : List Event)
    (ha : isPush a = false)
    (h : ∀ n, ((l.take n).countP isPush) ≤ ((l.take n).countP isIncr)) :
    ∀ n, (((a :: l).take n).countP isPush) ≤
      (((a :: l).take n).countP isIncr) := by
  intro n
  cases n with
  | zero => simp
  | succ n =>
      simp only [List.take_succ_cons, List.countP_cons, ha]
      have h2 := h n
      by_cases hI : isIncr a = true <;> simp [hI] <;> omega

theorem take_count_cons_incr_push (u : String) (d : Int) (ok : Bool)
    (l : List Event)
    (h : ∀ n, ((l.take n).countP isPush) ≤ ((l.take n).countP isIncr)) :
    ∀ n, (((Event.incr :: Event.push u d ok :: l).take n).countP isPush) ≤
      (((Event.incr :: Event.push u d ok :: l).take n).countP isIncr) := by
  intro n
  match n with
  | 0 => simp
  | 1 => simp [isPush, isIncr]
  | n + 2 =>
      simp only [List.take_succ_cons, List.countP_cons]
      have h2 := h n
      simp only [isPush, isIncr]
      simp
      omega

theorem childEvents_take_balanced (links : List String) (d : Int)
    (pk : String → Bool) (tail : List Event)
    (h : ∀ n, ((tail.take n).countP isPush) ≤ ((tail.take n).countP isIncr)) :
    ∀ n, (((childEvents links d pk ++ tail).take n).countP isPush) ≤
      (((childEvents links d pk ++ tail).take n).countP isIncr) := by
  induction links with
  | nil => simpa [childEvents] using h
  | cons x xs ih =>
      have heq : childEvents (x :: xs) d pk ++ tail =
          Event.incr :: Event.push x d (pk x) ::
            (childEvents xs d pk ++ tail) := by
        simp [childEvents]
      rw [heq]
      exact take_count_cons_incr_push x d (pk x) _ ih

theorem take_count_nil_balanced :
    ∀ n, ((([] : List Event).take n).countP isPush) ≤
      ((([] : List Event).take n).countP isIncr) := by
  intro n; simp

/-- C2: for every task handled by a worker, the single `wg.Done()` is the
final event of the task's trace — issued after every child's `wg.Add(1)`
and push — and in every prefix of the trace the pushes never outnumber the
increments, i.e. each child's increment is issued before that child's
push. -/
theorem worker_decrement_after_increments (env : TaskEnv) (v : List String)
    (payload : Option WorkItem) :
    (∃ pre, (workerHandle env v payload).1 = pre ++ [Event.decr] ∧
      Event.decr ∉ pre) ∧
    (∀ n, ((workerHandle env v payload).1.take n).countP isPush ≤
      ((workerHandle env v payload).1.take n).countP isIncr) := by
  have hdecr := take_count_cons_nonpush Event.decr [] rfl take_count_nil_balanced
  cases payload with
  | none =>
      refine ⟨⟨[Event.logErr "unmarshal"], rfl, by simp⟩, ?_⟩
      exact take_count_cons_nonpush (Event.logErr "unmarshal") [Event.decr]
        rfl hdecr
  | some item =>
      refine ⟨⟨(process env v item).1, rfl, process_no_decr env v item⟩, ?_⟩
      have htr : (workerHandle env v (some item)).1 =
          (process env v item).1 ++ [Event.decr] := rfl
      rw [htr]
      simp only [process]
      split
      · simpa using hdecr
      · split
        · exact take_count_cons_nonpush _ _ rfl hdecr
        · cases henv : env.fetchRes with
          | none =>
              exact take_count_cons_nonpush _ _ rfl
                (take_count_cons_nonpush _ _ rfl
                  (take_count_cons_nonpush _ _ rfl hdecr))
          | some links =>
              have h1 := childEvents_take_balanced links (item.depth - 1)
                env.pushOk [Event.decr] hdecr
              have h2 := take_count_cons_nonpush (Event.fetch item.url) _
                rfl h1
              have h3 := take_count_cons_nonpush
                (Event.logCrawl item.depth item.url) _ rfl h2
              have h4 := take_count_cons_nonpush (Event.mark item.url false) _
                rfl h3
              simpa [List.cons_append] using h4

theorem worker_decrement_witness :
    (∃ pre,
      (workerHandle ⟨true, some ["b"], fun _ => true⟩ [] (some ⟨"a", 2⟩)).1 =
        pre ++ [Event.decr] ∧ Event.decr ∉ pre) ∧
    ((workerHandle ⟨true, some ["b"], fun _ => true⟩ []
        (some ⟨"a", 2⟩)).1.take 4).countP isPush ≤
      ((workerHandle ⟨true, some ["b"], fun _ => true⟩ []
          (some ⟨"a", 2⟩)).1.take 4).countP isIncr := by
  have h := worker_decrement_after_increments ⟨true, some ["b"], fun _ => true⟩
    [] (some ⟨"a", 2⟩)
  exact ⟨h.1, h.2 4⟩

theorem foldl_cons_length (enq : List WorkItem) :
    ∀ q : List WorkItem,
      (enq.foldl (fun acc c => c :: acc) q).length = enq.length + q.length := by
  induction enq with
  | nil => intro q; simp
  | cons x xs ih =>
      intro q
      simp only [List.foldl_cons, ih, List.length_cons]
      omega

theorem length_filter_split (pk : String → Bool) (l : List String) :
    (l.filter pk).length + (l.filter fun x => !(pk x)).length = l.length := by
  induction l with
  | nil => rfl
  | cons x xs ih =>
      by_cases h : pk x = true <;>
        simp only [List.filter_cons, h] <;> simp <;> omega

theorem childEvents_counts (links : List String) (d : Int)
    (pk : String → Bool) :
    (childEvents links d pk).countP isIncr = links.length ∧
    (childEvents links d pk).countP isDecr = 0 ∧
    (childEvents links d pk).countP isPushFail =
      (links.filter fun l => !(pk l)).length := by
  induction links with
  | nil => simp [childEvents]
  | cons x xs ih =>
      obtain ⟨h1, h2, h3⟩ := ih
      simp only [childEvents, List.flatMap_cons] at h1 h2 h3 ⊢
      by_cases h : pk x = true <;>
        simp [List.countP_append, List.countP_cons, List.filter_cons,
          isIncr, isDecr, isPushFail, h, h1, h2, h3]

theorem process_counts (env : TaskEnv) (v : List String) (item : WorkItem) :
    (process env v item).1.countP isIncr =
      ((process env v item).2.2).length +
        (process env v item).1.countP isPushFail ∧
    (process env v item).1.countP isDecr = 0 := by
  simp only [process]
  split
  · simp
  · split
    · simp [isIncr, isDecr, isPushFail]
    · cases henv : env.fetchRes with
      | none => simp [isIncr, isDecr, isPushFail]
      | some links =>
          obtain ⟨h1, h2, h3⟩ := childEvents_counts links (item.depth - 1)
            env.pushOk
          simp [List.countP_cons, isIncr, isDecr, isPushFail, h1, h2, h3]
          have := length_filter_split env.pushOk links
          omega

theorem workerHandle_counts (env : TaskEnv) (v : List String)
    (item : WorkItem) :
    (workerHandle env v (some item)).1.countP isIncr =
      ((workerHandle env v (some item)).2.2).length +
        (workerHandle env v (some item)).1.countP isPushFail ∧
    (workerHandle env v (some item)).1.countP isDecr = 1 := by
  obtain ⟨h1, h2⟩ := process_counts env v item
  have e : (workerHandle env v (some item)).1 =
      (process env v item).1 ++ [Event.decr] := rfl
  have e2 : (workerHandle env v (some item)).2.2 =
      (process env v item).2.2 := rfl
  rw [e, e2, List.countP_append, List.countP_append, List.countP_append]
  constructor
  · simp [List.countP_cons, isIncr, isPushFail, h1]
  · simp [List.countP_cons, isDecr, h2]

theorem crawlStep_counter_inv (env : WorkItem → TaskEnv) (st : CrawlState)
    (h : st.counter = (st.queue.length : Int) +
      ((st.trace.countP isPushFail : Nat) : Int)) :
    (crawlStep env st).counter =
      ((crawlStep env st).queue.length : Int) +
        (((crawlStep env st).trace.countP isPushFail : Nat) : Int) := by
  unfold crawlStep
  cases hq : st.queue.getLast? with
  | none => simpa using h
  | some item =>
      have hne : st.queue ≠ [] := by
        intro h0
        rw [h0] at hq
        simp at hq
      have hpos : 0 < st.queue.length := List.length_pos.mpr hne
      obtain ⟨hw1, hw2⟩ := workerHandle_counts (env item) st.visited item
      show st.counter +
        counterDelta (workerHandle (env item) st.visited (some item)).1 =
        (((workerHandle (env item) st.visited (some item)).2.2.foldl
            (fun q c => c :: q) st.queue.dropLast).length : Int) +
          (((st.trace ++
              (workerHandle (env item) st.visited (some item)).1).countP
                isPushFail : Nat) : Int)
      rw [foldl_cons_length, List.countP_append, List.length_dropLast]
      unfold counterDelta
      omega

theorem runCrawl_counter_inv (env : WorkItem → TaskEnv) (fuel : Nat) :
    ∀ st : CrawlState,
      st.counter = (st.queue.length : Int) +
        ((st.trace.countP isPushFail : Nat) : Int) →
      (runCrawl env fuel st).counter =
        ((runCrawl env fuel st).queue.length : Int) +
          (((runCrawl env fuel st).trace.countP isPushFail : Nat) : Int) := by
  induction fuel with
  | zero => intro st h; exact h
  | succ n ih => intro st h; exact ih _ (crawlStep_counter_inv env st h)

/-- C7 amended: a failed `LPush` is silent — the `wg.Add(1)` already
issued for the dropped child is never matched by a decrement, there is no
log and no retry — so at every point of any crawl the WaitGroup counter
equals the number of queued tasks plus the number of failed pushes.  Once
the queue drains after any failed push, the counter is therefore
permanently positive and `wg.Wait()` never returns. -/
theorem push_failure_counter_accounting (env : WorkItem → TaskEnv)
    (fuel : Nat) (seed : String) (d : Int) (ok : Bool) :
    (runCrawl env fuel (seedState seed d ok)).counter =
      ((runCrawl env fuel (seedState seed d ok)).queue.length : Int) +
        (((runCrawl env fuel (seedState seed d ok)).trace.countP
            isPushFail : Nat) : Int) := by
  apply runCrawl_counter_inv
  cases ok <;> simp [seedState, isPushFail, List.countP_cons]

/-- C7 counterexample: seed `"u"` at depth 2, page `"u"` links to `"a"`,
and the child `LPush` fails.  The failure is completely silent — the trace
records the `wg.Add(1)` and the failed push and nothing else: no error
log, no retry of `"a"`, no compensating `wg.Done` — and the crawl reaches
an empty queue with the counter stuck at 1, a fixpoint of `crawlStep`, so
the Pending Counter stays nonzero forever and completion never fires. -/
theorem push_failure_silent_counterexample :
    (runCrawl pushFailEnv 3 (seedState "u" 2 true)).queue = [] ∧
    (runCrawl pushFailEnv 3 (seedState "u" 2 true)).counter = 1 ∧
    crawlStep pushFailEnv (runCrawl pushFailEnv 3 (seedState "u" 2 true)) =
      runCrawl pushFailEnv 3 (seedState "u" 2 true) ∧
    (runCrawl pushFailEnv 3 (seedState "u" 2 true)).trace =
      [Event.incr, Event.push "u" 2 true, Event.mark "u" false,
       Event.logCrawl 2 "u", Event.fetch "u", Event.incr,
       Event.push "a" 1 false, Event.decr] := by
  refine ⟨?_, ?_, ?_, ?_⟩ <;> rfl

theorem process_shape (env : TaskEnv) (v : List String) (item : WorkItem) :
    (item.depth ≤ 0 ∧ process env v item = ([], v, [])) ∨
    (0 < item.depth ∧ (CheckAndMark env.storeOk v item.url).1 = true ∧
      process env v item =
        ([Event.mark item.url true],
         (CheckAndMark env.storeOk v item.url).2, [])) ∨
    (0 < item.depth ∧ (CheckAndMark env.storeOk v item.url).1 = false ∧
      env.fetchRes = none ∧
      process env v item =
        ([Event.mark item.url false, Event.logCrawl item.depth item.url,
          Event.fetch item.url],
         (CheckAndMark env.storeOk v item.url).2, [])) ∨
    (∃ links, 0 < item.depth ∧
      (CheckAndMark env.storeOk v item.url).1 = false ∧
      env.fetchRes = some links ∧
      process env v item =
        (Event.mark item.url false :: Event.logCrawl item.depth item.url ::
           Event.fetch item.url ::
           childEvents links (item.depth - 1) env.pushOk,
         (CheckAndMark env.storeOk v item.url).2,
         (links.filter env.pushOk).map fun l => ⟨l, item.depth - 1⟩)) := by
  by_cases hd : item.depth ≤ 0
  · refine Or.inl ⟨hd, ?_⟩
    simp only [process]
    rw [if_pos hd]
  · have hd' : 0 < item.depth := by omega
    by_cases hs : (CheckAndMark env.storeOk v item.url).1 = true
    · refine Or.inr (Or.inl ⟨hd', hs, ?_⟩)
      simp only [process]
      rw [if_neg hd, if_pos hs]
    · have hs' : (CheckAndMark env.storeOk v item.url).1 = false := by
        simpa using hs
      cases henv : env.fetchRes with
      | none =>
          refine Or.inr (Or.inr (Or.inl ⟨hd', hs', rfl, ?_⟩))
          simp only [process]
          rw [if_neg hd, if_neg hs, henv]
      | some links =>
          refine Or.inr (Or.inr (Or.inr ⟨links, hd', hs', rfl, ?_⟩))
          simp only [process]
          rw [if_neg hd, if_neg hs, henv]

theorem process_mem_mono (env : TaskEnv) (v : List String) (item : WorkItem)
    (u : String) (h : u ∈ v) : u ∈ (process env v item).2.1 := by
  rcases process_shape env v item with
    ⟨_, he⟩ | ⟨_, _, he⟩ | ⟨_, _, _, he⟩ | ⟨links, _, _, _, he⟩ <;> rw [he]
  · exact h
  · exact CheckAndMark_mem_mono env.storeOk v item.url u h
  · exact CheckAndMark_mem_mono env.storeOk v item.url u h
  · exact CheckAndMark_mem_mono env.storeOk v item.url u h

theorem childEvents_no_fetchOf (links : List String) (d : Int)
    (pk : String → Bool) (u : String) :
    (childEvents links d pk).countP (isFetchOf u) = 0 := by
  induction links with
  | nil => simp [childEvents]
  | cons x xs ih =>
      simp only [childEvents, List.flatMap_cons, List.countP_append] at *
      simp [List.countP_cons, isFetchOf, ih]

theorem process_fetchOf_facts (env : TaskEnv) (v : List String)
    (item : WorkItem) (u : String) :
    (process env v item).1.countP (isFetchOf u) ≤ 1 ∧
    (u ∈ v → (process env v item).1.countP (isFetchOf u) = 0) ∧
    ((process env v item).1.countP (isFetchOf u) ≠ 0 →
      u ∈ (process env v item).2.1) := by
  rcases process_shape env v item with
    ⟨hd, he⟩ | ⟨hd, hs, he⟩ | ⟨hd, hs, hn, he⟩ | ⟨links, hd, hs, hn, he⟩
  · rw [he]
    exact ⟨by simp, fun _ => by simp, fun h => absurd rfl h⟩
  · rw [he]
    refine ⟨by simp [List.countP_cons, isFetchOf], fun _ => ?_, fun hc => ?_⟩
    · simp [List.countP_cons, isFetchOf]
    · exact absurd (by simp [List.countP_cons, isFetchOf]) hc
  · rw [he]
    refine ⟨?_, ?_, ?_⟩
    · by_cases hx : item.url = u <;>
        simp [List.countP_cons, isFetchOf, hx]
    · intro hm
      have hx : item.url ≠ u := by
        intro hx
        rw [hx, CheckAndMark_true_of_mem env.storeOk v u hm] at hs
        simp at hs
      simp [List.countP_cons, isFetchOf, hx]
    · intro hc
      by_cases hx : item.url = u
      · subst hx
        rw [(CheckAndMark_false_cases env.storeOk v item.url hs).1]
        exact List.mem_cons_self _ _
      · exact absurd (by simp [List.countP_cons, isFetchOf, hx]) hc
  · rw [he]
    have hce := childEvents_no_fetchOf links (item.depth - 1) env.pushOk u
    refine ⟨?_, ?_, ?_⟩
    · by_cases hx : item.url = u <;>
        simp [List.countP_cons, isFetchOf, hx, hce]
    · intro hm
      have hx : item.url ≠ u := by
        intro hx
        rw [hx, CheckAndMark_true_of_mem env.storeOk v u hm] at hs
        simp at hs
      simp [List.countP_cons, isFetchOf, hx, hce]
    · intro hc
      by_cases hx : item.url = u
      · subst hx
        rw [(CheckAndMark_false_cases env.storeOk v item.url hs).1]
        exact List.mem_cons_self _ _
      · exact absurd (by simp [List.countP_cons, isFetchOf, hx, hce]) hc

theorem process_take_of_fetch (env : TaskEnv) (v : List String)
    (item : WorkItem) (h : (process env v item).1.countP isFetch ≠ 0) :
    (process env v item).1.take 3 =
      [Event.mark item.url false, Event.logCrawl item.depth item.url,
       Event.fetch item.url] := by
  rcases process_shape env v item with
    ⟨hd, he⟩ | ⟨hd, hs, he⟩ | ⟨hd, hs, hn, he⟩ | ⟨links, hd, hs, hn, he⟩
  · rw [he] at h
    simp at h
  · rw [he] at h
    simp [List.countP_cons, isFetch] at h
  · rw [he]
    rfl
  · rw [he]
    rfl

theorem runProcess_mem_mono (tasks : List (WorkItem × TaskEnv)) :
    ∀ (v : List String) (u : String),
      u ∈ v → u ∈ (runProcess v tasks).2 := by
  induction tasks with
  | nil => intro v u h; exact h
  | cons t rest ih =>
      intro v u h
      obtain ⟨item, env⟩ := t
      simp only [runProcess]
      exact ih _ u (process_mem_mono env v item u h)

theorem runProcess_count_zero_of_mem (tasks : List (WorkItem × TaskEnv)) :
    ∀ (v : List String) (u : String), u ∈ v →
      (runProcess v tasks).1.countP (isFetchOf u) = 0 := by
  induction tasks with
  | nil => intro v u h; simp [runProcess]
  | cons t rest ih =>
      intro v u h
      obtain ⟨item, env⟩ := t
      simp only [runProcess, List.countP_append]
      rw [(process_fetchOf_facts env v item u).2.1 h,
        ih _ u (process_mem_mono env v item u h)]

theorem runProcess_fetch_facts (tasks : List (WorkItem × TaskEnv)) :
    ∀ (v : List String) (u : String),
      (runProcess v tasks).1.countP (isFetchOf u) ≤ 1 ∧
      ((runProcess v tasks).1.countP (isFetchOf u) ≠ 0 →
        u ∈ (runProcess v tasks).2) := by
  induction tasks with
  | nil => intro v u; refine ⟨by simp [runProcess], fun h => ?_⟩; simp [runProcess] at h
  | cons t rest ih =>
      intro v u
      obtain ⟨item, env⟩ := t
      simp only [runProcess, List.countP_append]
      obtain ⟨hle, hmem0, hne⟩ := process_fetchOf_facts env v item u
      by_cases hz : (process env v item).1.countP (isFetchOf u) = 0
      · rw [hz]
        refine ⟨by simpa using (ih _ u).1, fun hc => ?_⟩
        exact (ih _ u).2 (by simpa using hc)
      · have hu : u ∈ (process env v item).2.1 := hne hz
        rw [runProcess_count_zero_of_mem rest _ u hu]
        refine ⟨by omega, fun _ => ?_⟩
        exact runProcess_mem_mono rest _ u hu

/-- C10: every task that passes the depth check is marked via
`CheckAndMark` before its fetch is issued — whenever `process` fetches,
its trace begins with the mark, then the crawl log line, then the fetch —
and across a whole run sharing the visited set each address is fetched at
most once (so a failed or timed-out fetch is never retried), the fetched
address is in the visited set at the end of the run, and visited-set
membership is never lost. -/
theorem mark_before_fetch_at_most_once (env : TaskEnv) (v : List String)
    (item : WorkItem) (tasks : List (WorkItem × TaskEnv)) (v0 : List String)
    (u : String) :
    ((process env v item).1.countP isFetch ≠ 0 →
      (process env v item).1.take 3 =
        [Event.mark item.url false, Event.logCrawl item.depth item.url,
         Event.fetch item.url]) ∧
    (runProcess v0 tasks).1.countP (isFetchOf u) ≤ 1 ∧
    (u ∈ v0 → u ∈ (runProcess v0 tasks).2) ∧
    ((runProcess v0 tasks).1.countP (isFetchOf u) ≠ 0 →
      u ∈ (runProcess v0 tasks).2) :=
  ⟨fun h => process_take_of_fetch env v item h,
   (runProcess_fetch_facts tasks v0 u).1,
   fun h => runProcess_mem_mono tasks v0 u h,
   (runProcess_fetch_facts tasks v0 u).2⟩

theorem mark_before_fetch_witness :
    (process ⟨true, some [], fun _ => true⟩ [] ⟨"x", 1⟩).1.take 3 =
      [Event.mark "x" false, Event.logCrawl 1 "x", Event.fetch "x"] ∧
    "x" ∈ (runProcess ["x"] []).2 ∧
    "x" ∈ (runProcess []
      [(⟨"x", 1⟩, ⟨true, some [], fun _ => true⟩)]).2 := by
  have h1 := mark_before_fetch_at_most_once ⟨true, some [], fun _ => true⟩
    [] ⟨"x", 1⟩ [] [] "x"
  have h2 := mark_before_fetch_at_most_once ⟨true, some [], fun _ => true⟩
    [] ⟨"x", 1⟩ [] ["x"] "x"
  have h3 := mark_before_fetch_at_most_once ⟨true, some [], fun _ => true⟩
    [] ⟨"x", 1⟩ [(⟨"x", 1⟩, ⟨true, some [], fun _ => true⟩)] [] "x"
  exact ⟨h1.1 (by decide), h2.2.2.1 (by decide), h3.2.2.2 (by decide)⟩

theorem extractLinks_cap_ten_witness :
    (extractLinks (fun s => s) page15).length ≤ 10 ∧
    "l5" ∉ extractLinks (fun s => s) page15 := by
  have h := extractLinks_cap_ten
  exact ⟨h.1 (fun s => s) page15, h.2.2.2.1⟩
